import Mathlib

/-!
Verification of the `regex-utils` library (`src/lib/src/index.ts` and
`src/lib/src/index.js`).

The JavaScript regular-expression engine is modelled after the engine contract
stated in the specification: a compiled pattern pairs its source text with its
flag string, construction fails (catchably) on malformed source, and the
pattern exposes both components for recombination.  String values are modelled
as Lean `String`; the handful of engine operations the library relies on
(single-character alternation-group replacement, splitting on a negated
character class, literal matching of escaped patterns, syntax checking) are
modelled explicitly below, each with a comment stating what it models.
-/

namespace RegexUtils

/-- A compiled regular expression, per the engine contract of the spec:
a pattern is a pair of its original source text and its flag string. -/
structure RegExp where
  source : String
  flags : String
deriving DecidableEq, Repr

/-- The `RegexInput` type of `index.ts`: `string | RegExp`. -/
inductive RegexInput where
  | str (s : String)
  | re (r : RegExp)
deriving DecidableEq, Repr

/-- One step of the `Set`-insertion loop of `combineFlags`: add a character at
the end unless it is already present. -/
def insertChar (result : List Char) (c : Char) : List Char :=
  if c ∈ result then result else result ++ [c]

/-- `combineFlags(...flags)` from the source: iterate over the flag strings,
skipping falsy (empty) ones, and insert each character into an
insertion-ordered set; join the set back into a string. -/
def combineFlags (flags : List String) : String :=
  ⟨flags.foldl (fun result flag =>
      if flag ≠ "" then flag.data.foldl insertChar result else result) []⟩

/-- First-seen deduplication of a character list: keep each character's first
occurrence, drop the rest.  Used to state what `combineFlags` computes. -/
def dedupFirstSeen : List Char → List Char
  | [] => []
  | c :: l => c :: dedupFirstSeen (l.filter (fun d => d ≠ c))
termination_by l => l.length
decreasing_by
  simp only [List.length_cons]
  exact Nat.lt_succ_of_le (List.length_filter_le _ _)

theorem insertChar_of_mem {result : List Char} {c : Char} (h : c ∈ result) :
    insertChar result c = result := by
  simp [insertChar, h]

theorem foldl_insertChar_of_subset : ∀ (l acc : List Char),
    (∀ c ∈ l, c ∈ acc) → l.foldl insertChar acc = acc
  | [], _, _ => rfl
  | c :: l, acc, h => by
    have hc : c ∈ acc := h c (by simp)
    simp only [List.foldl_cons, insertChar_of_mem hc]
    exact foldl_insertChar_of_subset l acc (fun d hd => h d (by simp [hd]))

theorem foldl_insertChar_eq_dedup : ∀ (l acc : List Char), acc.Nodup →
    l.foldl insertChar acc = acc ++ dedupFirstSeen (l.filter (fun d => d ∉ acc))
  | [], acc, _ => by simp [dedupFirstSeen]
  | c :: l, acc, hacc => by
    by_cases hc : c ∈ acc
    · have ihl := foldl_insertChar_eq_dedup l acc hacc
      simp only [List.foldl_cons, insertChar_of_mem hc, ihl]
      congr 2
      rw [List.filter_cons]
      simp [hc]
    · have hnd : (acc ++ [c]).Nodup := by
        simp [List.nodup_append, hacc, hc]
      have ihl := foldl_insertChar_eq_dedup l (acc ++ [c]) hnd
      simp only [List.foldl_cons, insertChar, if_neg hc, ihl]
      rw [List.filter_cons, if_pos (by simp [hc]), dedupFirstSeen, List.append_assoc]
      congr 1
      rw [List.singleton_append]
      congr 1
      rw [List.filter_filter]
      congr 1
      apply List.filter_congr
      intro d _
      by_cases hdc : d = c <;> by_cases hda : d ∈ acc <;>
        simp [hdc, hda, List.mem_append]

theorem mem_dedupFirstSeen : ∀ (l : List Char) (c : Char),
    c ∈ dedupFirstSeen l ↔ c ∈ l
  | [], c => by simp [dedupFirstSeen]
  | a :: l, c => by
    rw [dedupFirstSeen]
    simp only [List.mem_cons, mem_dedupFirstSeen (l.filter (fun d => d ≠ a)) c,
      List.mem_filter]
    constructor
    · rintro (rfl | ⟨h, _⟩)
      · exact Or.inl rfl
      · exact Or.inr h
    · rintro (rfl | h)
      · exact Or.inl rfl
      · by_cases hca : c = a
        · exact Or.inl hca
        · exact Or.inr ⟨h, by simp [hca]⟩
termination_by l _ => l.length
decreasing_by
  simp only [List.length_cons]
  exact Nat.lt_succ_of_le (List.length_filter_le _ _)

theorem nodup_dedupFirstSeen : ∀ l : List Char, (dedupFirstSeen l).Nodup
  | [] => by simp [dedupFirstSeen]
  | a :: l => by
    rw [dedupFirstSeen]
    refine List.nodup_cons.mpr ⟨?_, nodup_dedupFirstSeen _⟩
    rw [mem_dedupFirstSeen]
    simp
termination_by l => l.length
decreasing_by
  simp only [List.length_cons]
  exact Nat.lt_succ_of_le (List.length_filter_le _ _)

theorem dedupFirstSeen_append : ∀ (l1 l2 : List Char),
    dedupFirstSeen (l1 ++ l2) =
      dedupFirstSeen l1 ++ dedupFirstSeen (l2.filter (fun d => d ∉ l1))
  | [], l2 => by simp [dedupFirstSeen]
  | a :: l1, l2 => by
    rw [List.cons_append, dedupFirstSeen, List.filter_append,
      dedupFirstSeen_append (l1.filter (fun d => d ≠ a)) (l2.filter (fun d => d ≠ a)),
      dedupFirstSeen]
    simp only [List.cons_append, List.append_cancel_left_eq, List.cons.injEq, true_and]
    congr 1
    rw [List.filter_filter]
    apply List.filter_congr
    intro d _
    by_cases hda : d = a <;> by_cases hdl : d ∈ l1 <;>
      simp [hda, hdl, List.mem_filter]
termination_by l1 _ => l1.length
decreasing_by
  simp only [List.length_cons]
  exact Nat.lt_succ_of_le (List.length_filter_le _ _)

/-- `combineFlags` computed in closed form: first-seen deduplication of the
concatenation of all the flag strings. -/
theorem combineFlags_eq_dedup (fs : List String) :
    combineFlags fs = ⟨dedupFirstSeen ((fs.map String.data).flatten)⟩ := by
  suffices h : ∀ (fs : List String) (acc : List Char), acc.Nodup →
      fs.foldl (fun result flag =>
        if flag ≠ "" then flag.data.foldl insertChar result else result) acc =
      acc ++ dedupFirstSeen (((fs.map String.data).flatten).filter (fun d => d ∉ acc)) by
    rw [combineFlags, h fs [] List.nodup_nil, List.nil_append,
      List.filter_eq_self.mpr (fun a _ => by simp)]
  intro fs
  induction fs with
  | nil => intro acc hacc; simp [dedupFirstSeen]
  | cons f fs ih =>
    intro acc hacc
    have hstep : (if f ≠ "" then f.data.foldl insertChar acc else acc) =
        f.data.foldl insertChar acc := by
      by_cases hf : f = ""
      · subst hf
        simp [show ("" : String).data = [] from rfl]
      · simp [hf]
    simp only [List.foldl_cons, hstep]
    rw [foldl_insertChar_eq_dedup f.data acc hacc]
    have hnd2 : (acc ++ dedupFirstSeen (f.data.filter (fun d => d ∉ acc))).Nodup := by
      rw [List.nodup_append]
      refine ⟨hacc, nodup_dedupFirstSeen _, ?_⟩
      intro a ha hb
      rw [mem_dedupFirstSeen, List.mem_filter] at hb
      have hna : a ∉ acc := by simpa using hb.2
      exact hna ha
    rw [ih _ hnd2, List.append_assoc]
    congr 1
    rw [List.map_cons, List.flatten_cons, List.filter_append, dedupFirstSeen_append]
    congr 1
    rw [List.filter_filter]
    congr 1
    apply List.filter_congr
    intro d _
    by_cases hda : d ∈ acc <;>
      by_cases hdf : d ∈ f.data.filter (fun x => x ∉ acc) <;>
      simp only [List.mem_filter] at hdf <;>
      simp [hda, hdf, mem_dedupFirstSeen, List.mem_filter, List.mem_append]

theorem mem_combineFlags (fs : List String) (c : Char) :
    c ∈ (combineFlags fs).data ↔ ∃ f ∈ fs, c ∈ f.data := by
  rw [combineFlags_eq_dedup]
  show c ∈ dedupFirstSeen _ ↔ _
  rw [mem_dedupFirstSeen, List.mem_flatten]
  constructor
  · rintro ⟨l, hl, hc⟩
    rw [List.mem_map] at hl
    obtain ⟨f, hf, rfl⟩ := hl
    exact ⟨f, hf, hc⟩
  · rintro ⟨f, hf, hc⟩
    exact ⟨f.data, List.mem_map.mpr ⟨f, hf, rfl⟩, hc⟩

theorem nodup_combineFlags (fs : List String) : (combineFlags fs).data.Nodup := by
  rw [combineFlags_eq_dedup]
  exact nodup_dedupFirstSeen _

theorem dedupFirstSeen_of_nodup : ∀ l : List Char, l.Nodup → dedupFirstSeen l = l
  | [], _ => by rw [dedupFirstSeen]
  | a :: l, h => by
    rw [dedupFirstSeen]
    rw [List.nodup_cons] at h
    rw [List.filter_eq_self.mpr (fun b hb => by
      simp only [decide_eq_true_eq]
      rintro rfl
      exact h.1 hb)]
    rw [dedupFirstSeen_of_nodup l h.2]

/-- Unioning a flag string that adds nothing new leaves a duplicate-free flag
string unchanged. -/
theorem combineFlags_absorb (g f : String) (hnd : g.data.Nodup)
    (hsub : ∀ c ∈ f.data, c ∈ g.data) : combineFlags [g, f] = g := by
  rw [combineFlags_eq_dedup]
  show String.mk _ = g
  rw [show (List.map String.data [g, f]).flatten = g.data ++ f.data by simp]
  rw [dedupFirstSeen_append, dedupFirstSeen_of_nodup g.data hnd]
  rw [List.filter_eq_nil_iff.mpr (fun c hc => by simp [hsub c hc])]
  show String.mk (g.data ++ dedupFirstSeen []) = g
  rw [dedupFirstSeen, List.append_nil]

/-- The regex metacharacters escaped by `escapeRegex` — the characters of the
class `[\-\^\$.*+?^${}()|[\]\\]` in the source. -/
def isRegexMeta (c : Char) : Bool :=
  c ∈ ['-', '^', '$', '.', '*', '+', '?', '{', '}', '(', ')', '|', '[', ']', '\\']

/-- Engine model of `value.replaceAll(/[\-\^\$.*+?^${}()|[\]\\]/g, '\\$&')`:
the class matches single metacharacters, and each match is replaced by a
backslash followed by the matched character. -/
def escapeString (s : String) : String :=
  ⟨s.data.flatMap (fun c => if isRegexMeta c then ['\\', c] else [c])⟩

/-- `escapeRegex(value, flags)` from the source.  The compiled-pattern clause
recurses once into the string clause; that single step is unfolded here (so
that the definition computes in the kernel) and the recursive equation is
proved in the claim theorem. -/
def escapeRegex (value : RegexInput) (flags : String) : RegExp :=
  match value with
  | .str s => ⟨escapeString s, flags⟩
  | .re r => ⟨escapeString r.source, combineFlags [r.flags, flags]⟩

/-- The `accentPatterns` table from the source: ten single-character
alternation groups, one per Latin vowel in each case. -/
def accentPatterns : List String := [
  "(a|á|à|ä|â|ã)", "(A|Á|À|Ä|Â|Ã)",
  "(e|é|è|ë|ê)", "(E|É|È|Ë|Ê)",
  "(i|í|ì|ï|î)", "(I|Í|Ì|Ï|Î)",
  "(o|ó|ò|ö|ô|õ)", "(O|Ó|Ò|Ö|Ô|Õ)",
  "(u|ú|ù|ü|û)", "(U|Ú|Ù|Ü|Û)"]

/-- Engine model helper: the characters matched by a single-character
alternation group such as `(a|á|à)` — every character of the pattern other
than the parentheses and the alternation bars. -/
def groupChars (pattern : String) : List Char :=
  pattern.data.filter (fun c => c ∉ ['(', ')', '|'])

/-- Engine model of `s.replaceAll(new RegExp(pattern, "g"), replacement)` for
a single-character alternation group `pattern`: each character matched by the
group is replaced by the replacement text (which contains no `$` directives),
in one left-to-right pass over `s`. -/
def replaceAllGroup (pattern replacement s : String) : String :=
  ⟨s.data.flatMap (fun c =>
    if c ∈ groupChars pattern then replacement.data else [c])⟩

/-- JS single-character string indexing `s[i]` (`pattern[1]` in the source). -/
def jsCharAt (s : String) (i : Nat) : String :=
  match s.data[i]? with
  | some c => ⟨[c]⟩
  | none => ""

/-- `removeAccents(value)` from the source: fold the accent table, replacing
every match of each group by the group's second character (`pattern[1]`). -/
def removeAccents (value : String) : String :=
  accentPatterns.foldl (fun value pattern =>
    replaceAllGroup pattern (jsCharAt pattern 1) value) value

/-- The string-clause body of `regexAccentInsensitive`: fold the accent
table, replacing every match of each group by the whole group pattern. -/
def accentInsensitiveSource (s : String) : String :=
  accentPatterns.foldl (fun stringValue pattern =>
    replaceAllGroup pattern pattern stringValue) s

/-- `regexAccentInsensitive(value, flags)` from the source; the single
recursive step of the compiled-pattern clause is unfolded, and proved as an
equation in the claim theorem. -/
def regexAccentInsensitive (value : RegexInput) (flags : String) : RegExp :=
  match value with
  | .str s => ⟨accentInsensitiveSource s, flags⟩
  | .re r => ⟨accentInsensitiveSource r.source, combineFlags [r.flags, flags]⟩

/-- `regexCaseInsensitive(value, flags)` from the source: append `i` to the
flags when absent; the single recursive step of the compiled-pattern clause
is unfolded, and proved as an equation in the claim theorem. -/
def regexCaseInsensitive (value : RegexInput) (flags : String) : RegExp :=
  match value with
  | .str s =>
    let flags := if ¬ flags.data.contains 'i' then flags ++ "i" else flags
    ⟨s, flags⟩
  | .re r =>
    let flags := combineFlags [r.flags, flags]
    let flags := if ¬ flags.data.contains 'i' then flags ++ "i" else flags
    ⟨r.source, flags⟩

/-- `regexMatchWhole(value, flags)` from the source: wrap the source text in
start and end anchors; the single recursive step of the compiled-pattern
clause is unfolded, and proved as an equation in the claim theorem. -/
def regexMatchWhole (value : RegexInput) (flags : String) : RegExp :=
  match value with
  | .str s => ⟨"^" ++ s ++ "$", flags⟩
  | .re r => ⟨"^" ++ r.source ++ "$", combineFlags [r.flags, flags]⟩

/-- The `TransformRegexOptions` record from the source, fields in the order of
the destructuring defaults (`flags`, `accentInsensitive`, `caseInsensitive`,
`matchWhole`). -/
structure TransformRegexOptions where
  flags : String := ""
  accentInsensitive : Bool := false
  caseInsensitive : Bool := false
  matchWhole : Bool := false
deriving DecidableEq, Repr

/-- `transformRegex(value, options)` from the source. -/
def transformRegex (value : RegexInput) (options : TransformRegexOptions) : RegExp :=
  let value := if options.accentInsensitive then
      RegexInput.re (regexAccentInsensitive value options.flags) else value
  let value := if options.caseInsensitive then
      RegexInput.re (regexCaseInsensitive value options.flags) else value
  let value := if options.matchWhole then
      RegexInput.re (regexMatchWhole value options.flags) else value
  match value with
  | .str s => ⟨s, options.flags⟩
  | .re r => ⟨r.source, combineFlags [r.flags, options.flags]⟩

/-- The final compile step of `transformRegex`, as a standalone combinator
used to state the claim about the transform pipeline. -/
def finalCompile (value : RegexInput) (flags : String) : RegExp :=
  match value with
  | .str s => ⟨s, flags⟩
  | .re r => ⟨r.source, combineFlags [r.flags, flags]⟩

/-- Conditional application, used to state which transforms are applied. -/
def applyIf (b : Bool) (f : RegexInput → RegexInput) (v : RegexInput) : RegexInput :=
  if b then f v else v

/-- Engine model: parse a fully escaped pattern back to the literal text it
matches — `\c` denotes the literal character `c`; in patterns produced by
`escapeString` every metacharacter is escaped, so every remaining character
denotes itself. -/
def parseEscaped : List Char → List Char
  | [] => []
  | c :: ps =>
    if c = '\\' then
      match ps with
      | [] => [c]
      | c2 :: ps2 => c2 :: parseEscaped ps2
    else c :: parseEscaped ps

/-- Boolean prefix test on character lists (the first list is the pattern's
literal text). -/
def charsPrefixOf : List Char → List Char → Bool
  | [], _ => true
  | _ :: _, [] => false
  | a :: as, b :: bs => a == b && charsPrefixOf as bs

/-- Engine model: a literal (fully escaped) pattern matches at one position
when its literal text begins the remaining input. -/
def litMatchAt (pat t : List Char) : Bool :=
  charsPrefixOf (parseEscaped pat) t

/-- Engine model of `RegExp.prototype.test` for literal patterns: search for
a match at every position of the input. -/
def litTest (pat : List Char) : List Char → Bool
  | [] => litMatchAt pat []
  | c :: ts => litMatchAt pat (c :: ts) || litTest pat ts

theorem charsPrefixOf_self : ∀ l : List Char, charsPrefixOf l l = true
  | [] => rfl
  | a :: as => by simp [charsPrefixOf, charsPrefixOf_self as]

theorem parseEscaped_backslash (c : Char) (l : List Char) :
    parseEscaped ('\\' :: c :: l) = c :: parseEscaped l := by
  rw [parseEscaped.eq_def]
  simp

theorem parseEscaped_cons_ne {c : Char} (l : List Char) (hc : ¬ c = '\\') :
    parseEscaped (c :: l) = c :: parseEscaped l := by
  rw [parseEscaped.eq_def]
  simp [hc]

theorem parseEscaped_escapeString (s : String) :
    parseEscaped (escapeString s).data = s.data := by
  show parseEscaped (s.data.flatMap _) = s.data
  induction s.data with
  | nil => simp [parseEscaped]
  | cons c l ih =>
    rw [List.flatMap_cons]
    by_cases hm : isRegexMeta c
    · simp only [hm, if_true, List.cons_append, List.singleton_append,
        List.nil_append, parseEscaped_backslash, ih]
    · have hc : ¬ c = '\\' := by
        rintro rfl
        exact hm (by decide)
      simp only [hm, Bool.false_eq_true, if_false, List.singleton_append,
        parseEscaped_cons_ne _ hc, ih]

theorem litTest_of_litMatchAt {pat t : List Char} (h : litMatchAt pat t = true) :
    litTest pat t = true := by
  cases t with
  | nil => simpa [litTest] using h
  | cons c ts => simp [litTest, h]

/-- C2: `escapeRegex` on a raw string compiles, with the given flags, a source
in which every metacharacter occurrence is prefixed by a backslash; that
escaped source denotes exactly the original string as a literal, so the
compiled result matches the string literally (the `"a.b*c"` examples
included); on a compiled pattern it recurses on the source text with flag
union. -/
theorem escapeRegex_spec :
    (∀ s flags, escapeRegex (.str s) flags = ⟨escapeString s, flags⟩)
    ∧ (∀ s, (escapeString s).data =
        s.data.flatMap (fun c => if isRegexMeta c then ['\\', c] else [c]))
    ∧ (∀ s, parseEscaped (escapeString s).data = s.data)
    ∧ (∀ s, litTest (escapeString s).data s.data = true)
    ∧ ((escapeRegex (.str "a.b*c") "").source = "a\\.b\\*c"
        ∧ litTest (escapeRegex (.str "a.b*c") "").source.data "a.b*c".data = true
        ∧ litTest (escapeRegex (.str "a.b*c") "").source.data "aXbYYc".data = false)
    ∧ (∀ r flags, escapeRegex (.re r) flags =
        escapeRegex (.str r.source) (combineFlags [r.flags, flags])) := by
  refine ⟨fun s flags => rfl, fun s => rfl, parseEscaped_escapeString, ?_, ?_, fun r flags => rfl⟩
  · intro s
    apply litTest_of_litMatchAt
    rw [litMatchAt, parseEscaped_escapeString]
    exact charsPrefixOf_self s.data
  · exact ⟨by decide, by decide, by decide⟩

/-- C4: `combineFlags` returns exactly the set union of the characters of its
inputs, duplicate-free, in first-seen order (the first-seen deduplication of
the concatenation), ignoring empty inputs; in particular for two flag strings
membership in the result is exactly membership in either input, and the
result is a function of the input list. -/
theorem combineFlags_spec :
    (∀ fs, combineFlags fs = ⟨dedupFirstSeen ((fs.map String.data).flatten)⟩)
    ∧ (∀ fs, (combineFlags fs).data.Nodup)
    ∧ (∀ fs c, c ∈ (combineFlags fs).data ↔ ∃ f ∈ fs, c ∈ f.data)
    ∧ (∀ f1 f2 c, c ∈ (combineFlags [f1, f2]).data ↔ c ∈ f1.data ∨ c ∈ f2.data) := by
  refine ⟨combineFlags_eq_dedup, nodup_combineFlags, mem_combineFlags, ?_⟩
  intro f1 f2 c
  rw [mem_combineFlags]
  constructor
  · rintro ⟨f, hf, hc⟩
    simp only [List.mem_cons, List.not_mem_nil, or_false] at hf
    rcases hf with rfl | rfl
    · exact Or.inl hc
    · exact Or.inr hc
  · rintro (hc | hc)
    · exact ⟨f1, by simp, hc⟩
    · exact ⟨f2, by simp, hc⟩

/-- C1: `transformRegex` applies exactly the transforms whose option flag is
true, in the fixed order accent-insensitive, case-insensitive, whole-match
anchoring, followed by a final compile that merges in `options.flags` by flag
union; with all boolean options false the result keeps the input's source,
and a compiled-pattern input gets the union of its flags with
`options.flags`. -/
theorem transformRegex_spec :
    (∀ value options, transformRegex value options =
      finalCompile
        (applyIf options.matchWhole
          (fun v => .re (regexMatchWhole v options.flags))
          (applyIf options.caseInsensitive
            (fun v => .re (regexCaseInsensitive v options.flags))
            (applyIf options.accentInsensitive
              (fun v => .re (regexAccentInsensitive v options.flags)) value)))
        options.flags)
    ∧ (∀ s flags, transformRegex (.str s) ⟨flags, false, false, false⟩ = ⟨s, flags⟩)
    ∧ (∀ r flags, transformRegex (.re r) ⟨flags, false, false, false⟩ =
        ⟨r.source, combineFlags [r.flags, flags]⟩) := by
  refine ⟨?_, fun s flags => rfl, fun r flags => rfl⟩
  intro value options
  obtain ⟨f, a, c, m⟩ := options
  cases a <;> cases c <;> cases m <;> cases value <;> rfl

/-- Merging the same extra flags a second time adds nothing: the flag union
computed by the final compile of `transformRegex` is stable. -/
theorem combineFlags_pair_absorb (x f : String) :
    combineFlags [combineFlags [x, f], f] = combineFlags [x, f] := by
  apply combineFlags_absorb _ _ (nodup_combineFlags _)
  intro c hc
  exact (mem_combineFlags _ _).mpr ⟨f, by simp, hc⟩

/-- `regexCaseInsensitive` always outputs a flag string containing `i`. -/
theorem i_mem_regexCaseInsensitive (v : RegexInput) (f : String) :
    'i' ∈ (regexCaseInsensitive v f).flags.data := by
  have key : ∀ g : String,
      'i' ∈ (if ¬ g.data.contains 'i' then g ++ "i" else g).data := by
    intro g
    by_cases h : 'i' ∈ g.data
    · rw [if_neg (not_not_intro (List.elem_iff.mpr h))]
      exact h
    · rw [if_pos (mt List.elem_iff.mp h), String.data_append]
      simp [show ("i" : String).data = ['i'] from rfl]
  cases v with
  | str s => exact key f
  | re r => exact key (combineFlags [r.flags, f])

/-- C9 counterexample: applying `transformRegex` with `matchWhole` a second
time to the already-anchored pattern wraps a second pair of anchors around
the source (`^^abc$$`), so the round trip is not idempotent for
`matchWhole`. -/
theorem transformRegex_matchWhole_not_idempotent :
    transformRegex
        (.re (transformRegex (.str "abc") ⟨"", false, false, true⟩))
        ⟨"", false, false, true⟩
      ≠ transformRegex (.str "abc") ⟨"", false, false, true⟩ := by
  decide

/-- C9 (amended): a second application of `transformRegex` with the same
options is idempotent for `caseInsensitive`; for `matchWhole` it is not —
the source is wrapped in a second pair of anchors — but the resulting flag
string equals the flag string after the first application. -/
theorem transformRegex_repeat_spec :
    (∀ value flags,
      transformRegex (.re (transformRegex value ⟨flags, false, true, false⟩))
          ⟨flags, false, true, false⟩ =
        transformRegex value ⟨flags, false, true, false⟩)
    ∧ (∀ value flags,
        (transformRegex (.re (transformRegex value ⟨flags, false, false, true⟩))
            ⟨flags, false, false, true⟩).flags =
          (transformRegex value ⟨flags, false, false, true⟩).flags
        ∧ (transformRegex (.re (transformRegex value ⟨flags, false, false, true⟩))
            ⟨flags, false, false, true⟩).source =
          "^" ++ (transformRegex value ⟨flags, false, false, true⟩).source ++ "$") := by
  constructor
  · intro v f
    have hT : ∀ w, transformRegex w ⟨f, false, true, false⟩ =
        ⟨(regexCaseInsensitive w f).source,
          combineFlags [(regexCaseInsensitive w f).flags, f]⟩ := fun w => rfl
    rw [hT, hT]
    have hGG : combineFlags
        [combineFlags [(regexCaseInsensitive v f).flags, f], f] =
        combineFlags [(regexCaseInsensitive v f).flags, f] :=
      combineFlags_pair_absorb _ f
    have hiG : ('i' ∈ (combineFlags [(regexCaseInsensitive v f).flags, f]).data) :=
      (mem_combineFlags _ _).mpr
        ⟨(regexCaseInsensitive v f).flags, by simp, i_mem_regexCaseInsensitive v f⟩
    have hrc2 : regexCaseInsensitive
        (.re ⟨(regexCaseInsensitive v f).source,
          combineFlags [(regexCaseInsensitive v f).flags, f]⟩) f =
        ⟨(regexCaseInsensitive v f).source,
          combineFlags [(regexCaseInsensitive v f).flags, f]⟩ := by
      show RegExp.mk _ _ = _
      rw [hGG, if_neg (not_not_intro (List.elem_iff.mpr hiG))]
    rw [hrc2, hGG]
  · intro v f
    have hT : ∀ w, transformRegex w ⟨f, false, false, true⟩ =
        ⟨(regexMatchWhole w f).source,
          combineFlags [(regexMatchWhole w f).flags, f]⟩ := fun w => rfl
    rw [hT, hT]
    have hGG : combineFlags
        [combineFlags [(regexMatchWhole v f).flags, f], f] =
        combineFlags [(regexMatchWhole v f).flags, f] :=
      combineFlags_pair_absorb _ f
    constructor
    · show combineFlags [combineFlags [combineFlags
          [(regexMatchWhole v f).flags, f], f], f] =
        combineFlags [(regexMatchWhole v f).flags, f]
      rw [hGG, hGG]
    · rfl

namespace Js

/-- A JavaScript runtime value handed to a transform function of `index.js`:
a string, a compiled pattern, or any other value (carrying its `typeof`
text). -/
inductive JSValue where
  | str (s : String)
  | re (r : RegExp)
  | other (typeName : String)
deriving DecidableEq, Repr

/-- `escapeRegex` from `index.js`: the explicit `throw new TypeError(...)` of
the final branch is modelled as `Except.error`, whose value is the function's
result — the fault is not handled anywhere inside the library.  The single
recursive step of the RegExp branch is unfolded as in the `index.ts`
embedding. -/
def escapeRegex (value : JSValue) (flags : String) : Except String RegExp :=
  match value with
  | .str s => .ok ⟨escapeString s, flags⟩
  | .re r => .ok ⟨escapeString r.source, combineFlags [r.flags, flags]⟩
  | .other t => .error ("Expected string or RegExp, got " ++ t)

/-- `regexAccentInsensitive` from `index.js`, type fault modelled as
`Except.error`. -/
def regexAccentInsensitive (value : JSValue) (flags : String) : Except String RegExp :=
  match value with
  | .str s => .ok ⟨accentInsensitiveSource s, flags⟩
  | .re r => .ok ⟨accentInsensitiveSource r.source, combineFlags [r.flags, flags]⟩
  | .other t => .error ("Expected string or RegExp, got " ++ t)

/-- `regexCaseInsensitive` from `index.js`, type fault modelled as
`Except.error`. -/
def regexCaseInsensitive (value : JSValue) (flags : String) : Except String RegExp :=
  match value with
  | .str s =>
    let flags := if ¬ flags.data.contains 'i' then flags ++ "i" else flags
    .ok ⟨s, flags⟩
  | .re r =>
    let flags := combineFlags [r.flags, flags]
    let flags := if ¬ flags.data.contains 'i' then flags ++ "i" else flags
    .ok ⟨r.source, flags⟩
  | .other t => .error ("Expected string or RegExp, got " ++ t)

/-- `regexMatchWhole` from `index.js`, type fault modelled as
`Except.error`. -/
def regexMatchWhole (value : JSValue) (flags : String) : Except String RegExp :=
  match value with
  | .str s => .ok ⟨"^" ++ s ++ "$", flags⟩
  | .re r => .ok ⟨"^" ++ r.source ++ "$", combineFlags [r.flags, flags]⟩
  | .other t => .error ("Expected string or RegExp, got " ++ t)

/-- `removeAccents` from `index.js`: only strings are accepted; for a RegExp
`typeof` yields `"object"`. -/
def removeAccents (value : JSValue) : Except String String :=
  match value with
  | .str s => .ok (RegexUtils.removeAccents s)
  | .re _ => .error ("Expected string, got object")
  | .other t => .error ("Expected string, got " ++ t)

end Js

/-- C5: every transform function of `index.js`, applied to a value that is
neither a string nor a compiled pattern, evaluates to the `TypeError`
(modelled as `Except.error`), which is the whole result of the call — no
branch recovers it, so it reaches the caller; `removeAccents` additionally
faults on a compiled-pattern input. -/
theorem js_type_fault_spec :
    (∀ t flags, Js.escapeRegex (.other t) flags =
        .error ("Expected string or RegExp, got " ++ t))
    ∧ (∀ t flags, Js.regexAccentInsensitive (.other t) flags =
        .error ("Expected string or RegExp, got " ++ t))
    ∧ (∀ t flags, Js.regexCaseInsensitive (.other t) flags =
        .error ("Expected string or RegExp, got " ++ t))
    ∧ (∀ t flags, Js.regexMatchWhole (.other t) flags =
        .error ("Expected string or RegExp, got " ++ t))
    ∧ (∀ t, Js.removeAccents (.other t) = .error ("Expected string, got " ++ t))
    ∧ (∀ r, Js.removeAccents (.re r) = .error ("Expected string, got object")) :=
  ⟨fun _ _ => rfl, fun _ _ => rfl, fun _ _ => rfl, fun _ _ => rfl,
    fun _ => rfl, fun _ => rfl⟩

/-- Engine model of the compilation syntax check (spec §6): a scan over the
source that requires balanced unescaped groups outside character classes, a
terminated character class, and no dangling trailing escape.  This is a
simplification of the full JS pattern grammar, sufficient for the sources
the library handles. -/
def checkRegexSyntax : List Char → Nat → Bool → Bool
  | [], depth, inClass => depth == 0 && !inClass
  | '\\' :: rest, depth, inClass =>
    match rest with
    | [] => false
    | _ :: rest2 => checkRegexSyntax rest2 depth inClass
  | '(' :: rest, depth, inClass =>
    if inClass then checkRegexSyntax rest depth inClass
    else checkRegexSyntax rest (depth + 1) inClass
  | ')' :: rest, depth, inClass =>
    if inClass then checkRegexSyntax rest depth inClass
    else depth != 0 && checkRegexSyntax rest (depth - 1) inClass
  | '[' :: rest, depth, _ => checkRegexSyntax rest depth true
  | ']' :: rest, depth, _ => checkRegexSyntax rest depth false
  | _ :: rest, depth, inClass => checkRegexSyntax rest depth inClass

/-- Engine model: the flag characters `new RegExp` accepts, each at most
once. -/
def validFlags (flags : String) : Bool :=
  flags.data.all (fun c => c ∈ ['d', 'g', 'i', 'm', 's', 'u', 'v', 'y'])
    && decide flags.data.Nodup

/-- Engine model of `new RegExp(source, flags)` as a fallible construction:
`none` models the thrown SyntaxError. -/
def compileRegex (source flags : String) : Option RegExp :=
  if checkRegexSyntax source.data 0 false && validFlags flags then
    some ⟨source, flags⟩
  else none

/-- `isValidRegex(value, flags)` from the source: construct the pattern in a
`try` block, catch the failure and turn it into `false`.  The function is
total — the catch converts the only possible fault into a boolean. -/
def isValidRegex (value : String) (flags : String) : Bool :=
  match compileRegex value flags with
  | some _ => true
  | none => false

/-- C6: `isValidRegex` returns true exactly when compiling the source with
the flags succeeds, and false otherwise; it is a total boolean function (the
compilation fault is caught locally), and the two examples hold. -/
theorem isValidRegex_spec :
    (∀ value flags, isValidRegex value flags = (compileRegex value flags).isSome)
    ∧ (∀ value flags, isValidRegex value flags = true ↔
        ∃ r, compileRegex value flags = some r)
    ∧ isValidRegex "(unclosed" "" = false
    ∧ isValidRegex "[a-z]+" "" = true := by
  refine ⟨?_, ?_, by decide, by decide⟩
  · intro v f
    cases h : compileRegex v f <;> simp [isValidRegex, h]
  · intro v f
    cases h : compileRegex v f <;> simp [isValidRegex, h]

/-- Spec-side canonical form of a character under the accent table: the
first alternative of the group containing it, the character itself when no
group does. -/
def canonicalAccentChar (c : Char) : Char :=
  match accentPatterns.find? (fun p => (groupChars p).contains c) with
  | some p => ((groupChars p).head?).getD c
  | none => c

/-- The character-level effect of the `removeAccents` fold: apply each accent
group's substitution in table order. -/
def accentCharFold (c : Char) : Char :=
  accentPatterns.foldl (fun c p =>
    if c ∈ groupChars p then ((jsCharAt p 1).data).headD c else c) c

theorem replaceAllGroup_single (p v : String) (ch : Char)
    (h : (jsCharAt p 1).data = [ch]) :
    replaceAllGroup p (jsCharAt p 1) v =
      ⟨v.data.map (fun c => if c ∈ groupChars p then ch else c)⟩ := by
  show String.mk _ = _
  congr 1
  rw [h]
  induction v.data with
  | nil => rfl
  | cons c l ih =>
    rw [List.flatMap_cons, List.map_cons, ih]
    by_cases hc : c ∈ groupChars p <;> simp [hc]

theorem removeAccents_fold : ∀ (ps : List String) (v : List Char),
    (∀ p ∈ ps, ∃ ch, (jsCharAt p 1).data = [ch]) →
    ps.foldl (fun v p => replaceAllGroup p (jsCharAt p 1) v) ⟨v⟩ =
      ⟨v.map (fun c => ps.foldl (fun c p =>
        if c ∈ groupChars p then ((jsCharAt p 1).data).headD c else c) c)⟩
  | [], v, _ => by simp
  | p :: ps, v, h => by
    obtain ⟨ch, hch⟩ := h p (by simp)
    rw [List.foldl_cons, replaceAllGroup_single p ⟨v⟩ ch hch]
    rw [removeAccents_fold ps _ (fun q hq => h q (by simp [hq]))]
    show String.mk _ = String.mk _
    congr 1
    show (v.map _).map _ = _
    rw [List.map_map]
    apply List.map_congr_left
    intro c _
    show ps.foldl _ ((fun c => if c ∈ groupChars p then ch else c) c) = _
    rw [List.foldl_cons]
    congr 2
    rw [hch]
    by_cases hc : c ∈ groupChars p <;> simp [hc]

theorem accentCharFold_eq_canonical (c : Char) :
    accentCharFold c = canonicalAccentChar c := by
  by_cases h : ∃ p ∈ accentPatterns, c ∈ groupChars p
  · have hc : c ∈ accentPatterns.flatMap groupChars := by
      obtain ⟨p, hp, hcp⟩ := h
      exact List.mem_flatMap.mpr ⟨p, hp, hcp⟩
    have hall : (accentPatterns.flatMap groupChars).all
        (fun c => accentCharFold c == canonicalAccentChar c) = true := by decide
    exact beq_iff_eq.mp (List.all_eq_true.mp hall c hc)
  · push_neg at h
    have hfind : accentPatterns.find? (fun p => (groupChars p).contains c) = none := by
      apply List.find?_eq_none.mpr
      intro p hp hx
      exact h p hp (List.elem_iff.mp hx)
    rw [canonicalAccentChar, hfind]
    have h1 := h _ (show "(a|á|à|ä|â|ã)" ∈ accentPatterns by simp [accentPatterns])
    have h2 := h _ (show "(A|Á|À|Ä|Â|Ã)" ∈ accentPatterns by simp [accentPatterns])
    have h3 := h _ (show "(e|é|è|ë|ê)" ∈ accentPatterns by simp [accentPatterns])
    have h4 := h _ (show "(E|É|È|Ë|Ê)" ∈ accentPatterns by simp [accentPatterns])
    have h5 := h _ (show "(i|í|ì|ï|î)" ∈ accentPatterns by simp [accentPatterns])
    have h6 := h _ (show "(I|Í|Ì|Ï|Î)" ∈ accentPatterns by simp [accentPatterns])
    have h7 := h _ (show "(o|ó|ò|ö|ô|õ)" ∈ accentPatterns by simp [accentPatterns])
    have h8 := h _ (show "(O|Ó|Ò|Ö|Ô|Õ)" ∈ accentPatterns by simp [accentPatterns])
    have h9 := h _ (show "(u|ú|ù|ü|û)" ∈ accentPatterns by simp [accentPatterns])
    have h10 := h _ (show "(U|Ú|Ù|Ü|Û)" ∈ accentPatterns by simp [accentPatterns])
    simp only [accentCharFold, accentPatterns, List.foldl_cons, List.foldl_nil,
      if_neg h1, if_neg h2, if_neg h3, if_neg h4, if_neg h5,
      if_neg h6, if_neg h7, if_neg h8, if_neg h9, if_neg h10]

set_option maxHeartbeats 400000 in
theorem removeAccents_eq_map (s : String) :
    removeAccents s = ⟨s.data.map canonicalAccentChar⟩ := by
  have hsing : ∀ p ∈ accentPatterns, ∃ ch, (jsCharAt p 1).data = [ch] := by
    intro p hp
    fin_cases hp
    · exact ⟨'a', rfl⟩
    · exact ⟨'A', rfl⟩
    · exact ⟨'e', rfl⟩
    · exact ⟨'E', rfl⟩
    · exact ⟨'i', rfl⟩
    · exact ⟨'I', rfl⟩
    · exact ⟨'o', rfl⟩
    · exact ⟨'O', rfl⟩
    · exact ⟨'u', rfl⟩
    · exact ⟨'U', rfl⟩
  have hfold := removeAccents_fold accentPatterns s.data hsing
  rw [removeAccents]
  rw [show (⟨s.data⟩ : String) = s from rfl] at hfold
  rw [hfold]
  exact congrArg String.mk
    (List.map_congr_left (fun c _ => accentCharFold_eq_canonical c))

/-- C7: `removeAccents` maps every character belonging to one of the ten
alternation groups to the group's plain canonical form (its first
alternative) and leaves every other character unchanged; the `café` and
`RÉSUMÉ` examples hold. -/
theorem removeAccents_spec :
    (∀ s, removeAccents s = ⟨s.data.map canonicalAccentChar⟩)
    ∧ removeAccents "café" = "cafe"
    ∧ removeAccents "RÉSUMÉ" = "RESUME" :=
  ⟨removeAccents_eq_map, by decide, by decide⟩

/-- Engine model of the `\w` class: ASCII letters, digits and underscore
(`Char.isAlpha` and `Char.isDigit` are exactly the ASCII ranges). -/
def isWordChar (c : Char) : Bool := c.isAlpha || c.isDigit || c == '_'

/-- Engine model of the character class `[\w_-]` (the underscore is listed
twice in the source class; the set is letters, digits, underscore,
hyphen). -/
def isSlugChar (c : Char) : Bool := isWordChar c || c == '-'

/-- The precompiled `alphanumericPattern = /[\w_-]+/i` of the source. -/
def alphanumericPattern : RegExp := ⟨"[\\w_-]+", "i"⟩

/-- The precompiled `nonAlphanumericPattern = /[^\w_-]+/i` of the source. -/
def nonAlphanumericPattern : RegExp := ⟨"[^\\w_-]+", "i"⟩

/-- Engine model of `String.split` on a `[...]+` class pattern with the `g`
flag: split at every maximal run of characters satisfying `p`, producing the
empty leading and trailing segments JS produces when the input starts or
ends with a run. -/
def splitRuns (p : Char → Bool) : List Char → List (List Char)
  | [] => [[]]
  | c :: cs =>
    match splitRuns p cs with
    | [] => [[]]
    | seg :: segs =>
      if p c then
        match cs with
        | [] => [] :: seg :: segs
        | c2 :: _ => if p c2 then seg :: segs else [] :: seg :: segs
      else (c :: seg) :: segs

/-- Engine model of `Array.prototype.join`. -/
def joinSep (sep : List Char) : List (List Char) → List Char
  | [] => []
  | [w] => w
  | w :: ws => w ++ sep ++ joinSep sep ws

/-- `toAlphanumeric(str, separator)` from the source: the global
non-alphanumeric pattern is `transformRegex(nonAlphanumericPattern,
{flags: "g"})` (recorded as an equation in the claim theorem); remove
accents, split on the pattern, strip the remaining matches from every word
with `replaceAll(pattern, "")`, drop falsy (empty) words and join with the
separator.  Splitting and stripping use the engine model of the class
`[^\w_-]+`. -/
def toAlphanumeric (str : String) (separator : String) : String :=
  let str := removeAccents str
  let words := splitRuns (fun c => !isSlugChar c) str.data
  let words := words.map (fun word => word.filter (fun c => isSlugChar c))
  ⟨joinSep separator.data (words.filter (fun word => !word.isEmpty))⟩

/-- `isAlphanumeric(str)` from the source: test the string against
`transformRegex(alphanumericPattern, {matchWhole: true})`, the anchored
pattern `^[\w_-]+$` (recorded as an equation in the claim theorem); under
the engine model the test succeeds exactly on a nonempty string of class
characters. -/
def isAlphanumeric (str : String) : Bool :=
  !str.data.isEmpty && str.data.all isSlugChar

/-- Spec-side alphanumeric set: letters, digits, underscore, hyphen. -/
def specAlnumChar (c : Char) : Bool :=
  c.isAlpha || c.isDigit || c == '_' || c == '-'

/-- The claim's description of `toAlphanumeric`, written from the spec's
words: remove accents, split on maximal runs of characters outside the
alphanumeric set, strip remaining such characters from each segment,
discard empty segments, join the survivors with the separator. -/
def specToAlphanumeric (str separator : String) : String :=
  ⟨joinSep separator.data
    (((splitRuns (fun c => !specAlnumChar c) (removeAccents str).data).map
      (fun w => w.filter specAlnumChar)).filter (fun w => !w.isEmpty))⟩

theorem isSlugChar_eq_specAlnumChar : isSlugChar = specAlnumChar := by
  funext c
  simp [isSlugChar, isWordChar, specAlnumChar, Bool.or_assoc]

/-- C8: `toAlphanumeric` is exactly the remove-accents, split, strip,
discard-empties, join pipeline of the claim; the compiled splitting pattern
is `[^\w_-]+` with flags `ig`; and the `Héllo, World!` example holds. -/
theorem toAlphanumeric_spec :
    (∀ s sep, toAlphanumeric s sep = specToAlphanumeric s sep)
    ∧ transformRegex (.re nonAlphanumericPattern) ⟨"g", false, false, false⟩ =
        ⟨"[^\\w_-]+", "ig"⟩
    ∧ toAlphanumeric "Héllo, World!" "-" = "Hello-World" := by
  refine ⟨?_, by decide, by decide⟩
  intro s sep
  rw [toAlphanumeric, specToAlphanumeric, isSlugChar_eq_specAlnumChar]

theorem joinSep_all_slug : ∀ segs : List (List Char),
    (∀ w ∈ segs, w.all isSlugChar = true) →
    (joinSep ['-'] segs).all isSlugChar = true
  | [], _ => rfl
  | [w], h => by simpa [joinSep] using h w (by simp)
  | w :: w2 :: ws, h => by
    rw [show joinSep ['-'] (w :: w2 :: ws) =
      w ++ ['-'] ++ joinSep ['-'] (w2 :: ws) from rfl]
    rw [List.all_append, List.all_append]
    have hw := h w (by simp)
    have hrest := joinSep_all_slug (w2 :: ws) (fun x hx => h x (by simp [hx]))
    have hdash : isSlugChar '-' = true := by decide
    simp [hw, hrest, hdash]

/-- C10: `toAlphanumeric` with the default separator returns the empty
string or a string accepted by `isAlphanumeric` — a nonempty string of
letters, digits, underscores and hyphens. -/
theorem toAlphanumeric_isAlphanumeric (s : String) :
    toAlphanumeric s "-" = "" ∨ isAlphanumeric (toAlphanumeric s "-") = true := by
  have hdata : toAlphanumeric s "-" = ⟨joinSep ['-']
      (((splitRuns (fun c => !isSlugChar c) (removeAccents s).data).map
        (fun word => word.filter (fun c => isSlugChar c))).filter
        (fun word => !word.isEmpty))⟩ := rfl
  set segs := ((splitRuns (fun c => !isSlugChar c) (removeAccents s).data).map
      (fun word => word.filter (fun c => isSlugChar c))).filter
      (fun word => !word.isEmpty) with hsegs
  have hall : ∀ w ∈ segs, w.all isSlugChar = true := by
    intro w hw
    rw [hsegs, List.mem_filter] at hw
    obtain ⟨hmem, _⟩ := hw
    rw [List.mem_map] at hmem
    obtain ⟨word, _, rfl⟩ := hmem
    rw [List.all_eq_true]
    intro c hc
    exact List.of_mem_filter hc
  cases hcase : segs with
  | nil =>
    left
    rw [hdata, hcase]
    rfl
  | cons w ws =>
    right
    have hwne : ¬ w.isEmpty = true := by
      have hw : w ∈ segs := by rw [hcase]; simp
      rw [hsegs, List.mem_filter] at hw
      simpa using hw.2
    rw [hdata, hcase]
    rw [isAlphanumeric]
    show (!(joinSep ['-'] (w :: ws)).isEmpty && (joinSep ['-'] (w :: ws)).all isSlugChar) = true
    have hne : (joinSep ['-'] (w :: ws)).isEmpty = false := by
      cases ws with
      | nil =>
        rw [show joinSep ['-'] [w] = w from rfl]
        cases hw : w.isEmpty
        · rfl
        · exact absurd hw hwne
      | cons w2 ws2 =>
        rw [show joinSep ['-'] (w :: w2 :: ws2) =
          w ++ ['-'] ++ joinSep ['-'] (w2 :: ws2) from rfl]
        simp [List.isEmpty_iff]
    rw [hne, joinSep_all_slug (w :: ws) (by rw [← hcase]; exact hall)]
    rfl

/-- A violation record inside the nested error carried by the two
function-validation issue kinds (`argumentsError.errors[k]`,
`returnTypeError.errors[k]`): its field path and message.  Path segments are
modelled as strings (JS renders numeric indices as their decimal text when
joining). -/
structure ZodInnerIssue where
  path : List String
  message : String
deriving DecidableEq, Repr

/-- A violation record of the schema engine (spec §6): a code tag, a field
path and a message.  The two function-validation kinds carry a nested error
whose `errors[0]` the source reads, so the nested error is modelled as its
first issue together with the remaining ones; `plain` covers every code
other than `invalid_arguments` and `invalid_return_type`. -/
inductive ZodIssue where
  | plain (code : String) (path : List String) (message : String)
  | invalidArguments (path : List String) (message : String)
      (firstInner : ZodInnerIssue) (restInner : List ZodInnerIssue)
  | invalidReturnType (path : List String) (message : String)
      (firstInner : ZodInnerIssue) (restInner : List ZodInnerIssue)
deriving DecidableEq, Repr

/-- A `ZodError`: the ordered sequence of violation records reported by the
engine. -/
structure ZodError where
  errors : List ZodIssue
deriving DecidableEq, Repr

/-- The `formatIssue` closure inside `interpretZodError`; `pfx` models the
`prefix` option (`string | string[] | undefined` — the word itself is a Lean
keyword). -/
def formatIssue (pfx : Option (String ⊕ List String)) (separator : String)
    (issue : ZodIssue) : String :=
  let path0 := match issue with
    | .plain _ p _ => p
    | .invalidArguments p _ _ _ => p
    | .invalidReturnType p _ _ _ => p
  let path := match pfx with
    | some (.inl pre) => pre :: path0
    | some (.inr pres) => pres ++ path0
    | none => path0
  match issue with
  | .invalidReturnType _ _ first _ =>
      String.intercalate separator (path ++ "returnType" :: first.path)
        ++ ": " ++ first.message
  | .invalidArguments _ _ first _ =>
      String.intercalate separator (path ++ "arguments" :: first.path)
        ++ ": " ++ first.message
  | .plain _ _ message =>
      if path.isEmpty then message
      else String.intercalate separator path ++ ": " ++ message

/-- `interpretZodError(e, {prefix, separator})` from the source: `null`
(modelled `none`) when there are no violations, one formatted message for
exactly one, the ordered list of formatted messages otherwise. -/
def interpretZodError (e : ZodError) (pfx : Option (String ⊕ List String))
    (separator : String) : Option (String ⊕ List String) :=
  match e.errors with
  | [] => none
  | [issue] => some (.inl (formatIssue pfx separator issue))
  | i1 :: i2 :: rest =>
      some (.inr ((i1 :: i2 :: rest).map (formatIssue pfx separator)))

/-- The outcome of a safe parse (spec §6 schema-engine contract). -/
inductive ParseResult where
  | success
  | failure (error : ZodError)
deriving DecidableEq, Repr

/-- The result of the validator built by `zodValidateWithErrors`: `true`, a
thrown `ZodInterpretedError` (throw mode), a single message string, or a
list of messages. -/
inductive ZodValidatorResult where
  | ok
  | thrown (message : String) (zodMessage : Option (String ⊕ List String))
  | single (message : String)
  | multiple (messages : List String)
deriving DecidableEq, Repr

/-- The message the `ZodInterpretedError` constructor passes to `super`: a
list is joined with `joinSeparator`, `null` becomes the empty message. -/
def zodInterpretedErrorMessage (m : Option (String ⊕ List String))
    (joinSeparator : String) : String :=
  match m with
  | some (.inl s) => s
  | some (.inr l) => String.intercalate joinSeparator l
  | none => ""

/-- The options of `zodValidateWithErrors` (`_throw`, `prefix`,
`joinSeparator`, `pathSeparator`), with their defaults. -/
structure ZodValidateWithErrorsOptions where
  throwOpt : Bool := false
  pfx : Option (String ⊕ List String) := none
  joinSeparator : String := "\n"
  pathSeparator : String := "."
deriving DecidableEq, Repr

/-- `zodValidateWithErrors(p, options)` from the source, applied to a value:
`true` on success; otherwise build the `ZodInterpretedError` from the parse
error, throw it in throw mode, and return its `zodMessage ?? ""` (a single
message, a message list, or the empty string for a violation-free error)
when not throwing. -/
def zodValidateWithErrors {α : Type} (p : α → ParseResult)
    (options : ZodValidateWithErrorsOptions) (v : α) : ZodValidatorResult :=
  match p v with
  | .success => .ok
  | .failure error =>
    let zodMessage := interpretZodError error options.pfx options.pathSeparator
    if options.throwOpt then
      .thrown (zodInterpretedErrorMessage zodMessage options.joinSeparator) zodMessage
    else
      match zodMessage with
      | some (.inl s) => .single s
      | some (.inr l) => .multiple l
      | none => .single ""

/-- The claim's message format, written from the spec's words: dot-joined
path, colon-space, then the detail; bare detail when the path is empty; for
the two nested violation kinds the path is extended with the literal marker
(`arguments` / `returnType`) followed by the first inner violation's path,
with the inner violation's message as the detail. -/
def specFormatIssue : ZodIssue → String
  | .plain _ path message =>
    if path = [] then message
    else String.intercalate "." path ++ ": " ++ message
  | .invalidArguments path _ first _ =>
    String.intercalate "." (path ++ "arguments" :: first.path)
      ++ ": " ++ first.message
  | .invalidReturnType path _ first _ =>
    String.intercalate "." (path ++ "returnType" :: first.path)
      ++ ": " ++ first.message

theorem formatIssue_default (i : ZodIssue) :
    formatIssue none "." i = specFormatIssue i := by
  cases i with
  | plain code path message =>
    cases path <;> simp [formatIssue, specFormatIssue]
  | invalidArguments path message first rest => rfl
  | invalidReturnType path message first rest => rfl

/-- C3: on a failing parse (which carries at least one violation), the
detail-returning validator built by `zodValidateWithErrors` with default
options returns a single formatted message for exactly one violation and the
ordered list of formatted messages — one per violation, in the order the
schema engine reported them — otherwise; each message follows the
`specFormatIssue` format: dot-joined path, colon-space, detail, bare detail
on an empty path, and the `arguments`/`returnType` marker plus first inner
path and inner message for the two nested kinds. -/
theorem zodValidateWithErrors_spec {α : Type} (p : α → ParseResult) (v : α)
    (e : ZodIssue) (es : List ZodIssue)
    (h : p v = .failure ⟨e :: es⟩) :
    zodValidateWithErrors p ⟨false, none, "\n", "."⟩ v =
      if es = [] then .single (specFormatIssue e)
      else .multiple ((e :: es).map specFormatIssue) := by
  have hfmt : formatIssue none "." = specFormatIssue := funext formatIssue_default
  cases es with
  | nil => simp [zodValidateWithErrors, h, interpretZodError, hfmt]
  | cons e2 rest => simp [zodValidateWithErrors, h, interpretZodError, hfmt]

/-- Witness for the claim theorem at concrete inputs: a two-violation failure
(one plain with a path, one function-arguments violation) yields the ordered
pair of formatted messages. -/
theorem zodValidateWithErrors_spec_witness :
    zodValidateWithErrors
        (fun _ : Nat => ParseResult.failure ⟨[
          ZodIssue.plain "custom" ["a", "b"] "bad",
          ZodIssue.invalidArguments ["f"] "outer" ⟨["0"], "inner"⟩ []]⟩)
        ⟨false, none, "\n", "."⟩ 0 =
      .multiple ["a.b: bad", "f.arguments.0: inner"] := by
  rw [zodValidateWithErrors_spec _ 0 _ _ rfl]
  decide

end RegexUtils
